import Mathlib

/-!
Shallow embedding of the `goiterators` Go library (dreadster3/goiterators).

A synchronous iterator (`iterator[T]` in `iterator.go`) is observed through
one full drain via `INext` by a consumer that never stops early: it pushes a
sequence of `(position, value)` pairs and afterwards its sticky error slot
(`err`) holds a value.  `Dr ε T` records exactly these two observables.
Each combinator of `algorithms.go` is translated as a function on such
denotations, its pull loop becoming a structural recursion on the upstream's
pushed list.  The parallel engine (`async_algorithms.go`,
`async_iterator.go`) is modelled further below by the envelopes travelling
through its rendezvous channel and by an event trace of its dispatcher.
-/

namespace GoIterators

/-- Pairs each element of a list with successive indices starting at `i`:
the shape in which Go range loops with a counter (`slices.All`, the local
`i` of `NewIteratorErr`, `outputIdx` of `FlatMap`) hand out positions. -/
def enumIdx (i : Nat) : List T → List (Nat × T)
  | [] => []
  | x :: rest => (i, x) :: enumIdx (i + 1) rest

/-- Denotation of one full drain of a sync iterator: `out` is the list of
`(position, value)` pairs it pushes to a consumer that never stops early,
and `err` the value of its sticky error slot once the drain has ended. -/
structure Dr (ε : Type) (T : Type) where
  out : List (Nat × T)
  err : Option ε
deriving DecidableEq, Repr

/-- Translation of `NewIteratorFromSlice` (`iterator.go`): wraps
`slices.All(slice)`, pushing `(0, x0), (1, x1), ...`; the slice source can
never produce an error, so the slot stays empty. -/
def NewIteratorFromSlice (l : List T) : Dr ε T :=
  ⟨enumIdx 0 l, none⟩

/-- Loop body of the `NewIteratorErr` wrapper (`iterator.go`): walk the
fallible generator's `(item, err)` pairs with a local counter `i`; a pair
carrying an error sets the error slot and stops, withholding that item;
otherwise the item is yielded as `(i, item)` and `i` is incremented. -/
def errGenRun (i : Nat) : List (T × Option ε) → List (Nat × T) × Option ε
  | [] => ([], none)
  | (_, some e) :: _ => ([], some e)
  | (x, none) :: rest =>
    let r := errGenRun (i + 1) rest
    ((i, x) :: r.1, r.2)

/-- Translation of `NewIteratorErr` (`iterator.go`): the iterator built
from a fallible generator, given as the list of `(value, error)` pairs the
generator would push. -/
def NewIteratorErr (gen : List (T × Option ε)) : Dr ε T :=
  ⟨(errGenRun 0 gen).1, (errGenRun 0 gen).2⟩

/-- Pull loop of `Map` (`algorithms.go`): forward each upstream pair with
the value transformed, keeping the upstream position. -/
def mapLoop (f : T → U) : List (Nat × T) → List (Nat × U)
  | [] => []
  | (i, x) :: rest => (i, f x) :: mapLoop f rest

/-- Translation of `Map` (`algorithms.go`): after the pull loop ends the
upstream error (if any) is copied into the fresh iterator's slot, so the
resulting slot equals the upstream's. -/
def Map (d : Dr ε T) (f : T → U) : Dr ε U :=
  ⟨mapLoop f d.out, d.err⟩

/-- Pull loop of `IMap` (`algorithms.go`): like `mapLoop` but the transform
also receives the upstream position. -/
def imapLoop (f : Nat → T → U) : List (Nat × T) → List (Nat × U)
  | [] => []
  | (i, x) :: rest => (i, f i x) :: imapLoop f rest

/-- Translation of `IMap` (`algorithms.go`). -/
def IMap (d : Dr ε T) (f : Nat → T → U) : Dr ε U :=
  ⟨imapLoop f d.out, d.err⟩

/-- Pull loop of `Filter` (`algorithms.go`): yield exactly the upstream
pairs whose value satisfies the predicate, with their upstream position. -/
def filterLoop (p : T → Bool) : List (Nat × T) → List (Nat × T)
  | [] => []
  | (i, x) :: rest =>
    if p x then (i, x) :: filterLoop p rest else filterLoop p rest

/-- Translation of `Filter` (`algorithms.go`). -/
def Filter (d : Dr ε T) (p : T → Bool) : Dr ε T :=
  ⟨filterLoop p d.out, d.err⟩

/-- Pull loop of `IFilter` (`algorithms.go`): the predicate also sees the
upstream position. -/
def ifilterLoop (p : Nat → T → Bool) : List (Nat × T) → List (Nat × T)
  | [] => []
  | (i, x) :: rest =>
    if p i x then (i, x) :: ifilterLoop p rest else ifilterLoop p rest

/-- Translation of `IFilter` (`algorithms.go`). -/
def IFilter (d : Dr ε T) (p : Nat → T → Bool) : Dr ε T :=
  ⟨ifilterLoop p d.out, d.err⟩

/-- Pull loop of `Take` (`algorithms.go`): each upstream pair is yielded,
then the loop returns early (skipping the error copy) as soon as the
upstream position `idx` satisfies `idx >= n-1`.  Returns the pairs pushed,
the error slot value (`upErr` is copied only when the upstream is
exhausted), and how many elements were pulled from the upstream. -/
def takeLoop (n : Int) (upErr : Option ε) : List (Nat × T) → List (Nat × T) × Option ε × Nat
  | [] => ([], upErr, 0)
  | (i, x) :: rest =>
    if n - 1 ≤ (i : Int) then ([(i, x)], none, 1)
    else
      let r := takeLoop n upErr rest
      ((i, x) :: r.1, r.2.1, r.2.2 + 1)

/-- Translation of `Take` (`algorithms.go`): `n <= 0` returns before ever
pulling the upstream. -/
def Take (d : Dr ε T) (n : Int) : Dr ε T :=
  if n ≤ 0 then ⟨[], none⟩
  else ⟨(takeLoop n d.err d.out).1, (takeLoop n d.err d.out).2.1⟩

/-- Number of elements `Take` pulls from its upstream during a full drain
(the instrumented pull count of `takeLoop`). -/
def TakePulls (d : Dr ε T) (n : Int) : Nat :=
  if n ≤ 0 then 0 else (takeLoop n d.err d.out).2.2

/-- Inner loop of `FlatMap`/`IFlatMap` (`algorithms.go`): push the elements
of one expansion under the running output counter `outputIdx`. -/
def yieldFrom (outputIdx : Nat) : List U → List (Nat × U)
  | [] => []
  | y :: ys => (outputIdx, y) :: yieldFrom (outputIdx + 1) ys

/-- Pull loop of `FlatMap` (`algorithms.go`): expand each upstream value
and emit the expansion under a running `outputIdx` counter that is
incremented once per emitted element, across all expansions. -/
def flatMapLoop (f : T → List U) (outputIdx : Nat) : List (Nat × T) → List (Nat × U)
  | [] => []
  | (_, x) :: rest =>
    yieldFrom outputIdx (f x) ++ flatMapLoop f (outputIdx + (f x).length) rest

/-- Translation of `FlatMap` (`algorithms.go`): the per-element expansion
(`iter.Seq[U]` in Go) is a finite ordered list. -/
def FlatMap (d : Dr ε T) (f : T → List U) : Dr ε U :=
  ⟨flatMapLoop f 0 d.out, d.err⟩

/-- Pull loop of `IFlatMap` (`algorithms.go`): the expansion also receives
the upstream position, while outputs still use the running counter. -/
def iflatMapLoop (f : Nat → T → List U) (outputIdx : Nat) : List (Nat × T) → List (Nat × U)
  | [] => []
  | (i, x) :: rest =>
    yieldFrom outputIdx (f i x) ++ iflatMapLoop f (outputIdx + (f i x).length) rest

/-- Translation of `IFlatMap` (`algorithms.go`). -/
def IFlatMap (d : Dr ε T) (f : Nat → T → List U) : Dr ε U :=
  ⟨iflatMapLoop f 0 d.out, d.err⟩

/-!
Parallel engine.  `Result` is the envelope moved through the rendezvous
channel.  The channel itself delivers envelopes to a single consumer in
some sequential order; `nextDrain`/`inextDrain` translate
`asyncIterator.Next`/`asyncIterator.INext` (`async_iterator.go`) applied to
that delivery order under a consumer that never stops early.
-/

/-- Translation of `Result[T]` (`async_iterator.go`): a value together with
an optional error. -/
structure Result (ε : Type) (T : Type) where
  value : T
  err : Option ε
deriving DecidableEq, Repr

/-- Drain of `asyncIterator.Next` over the sequence of envelopes the
channel delivers: a value envelope is yielded, the first envelope carrying
an error sets the error slot and ends the drain. -/
def nextDrain : List (Result ε T) → List T × Option ε
  | [] => ([], none)
  | r :: rest =>
    match r.err with
    | some e => ([], some e)
    | none =>
      let q := nextDrain rest
      (r.value :: q.1, q.2)

/-- Drain of `asyncIterator.INext`: like `nextDrain` but pairs each yielded
value with a local counter `i` that starts at 0 and is incremented once per
yielded value; also returns the envelopes left unread in the channel when
the drain ends. -/
def inextDrain (i : Nat) : List (Result ε T) → List (Nat × T) × Option ε × List (Result ε T)
  | [] => ([], none, [])
  | r :: rest =>
    match r.err with
    | some e => ([], some e, rest)
    | none =>
      let q := inextDrain (i + 1) rest
      ((i, r.value) :: q.1, q.2.1, q.2.2)

/-- Envelope list sent by one `MapAsync` worker (`async_algorithms.go`):
exactly one value envelope holding the transformed item. -/
def mapWorkerSends (f : T → U) (x : T) : List (Result ε U) :=
  [⟨f x, none⟩]

/-- Envelope list sent by one `FilterAsync` worker: one value envelope when
the predicate holds, nothing otherwise. -/
def filterWorkerSends (p : T → Bool) (x : T) : List (Result ε T) :=
  if p x then [⟨x, none⟩] else []

/-- Envelope list sent by one `FlatMapAsync` worker: one value envelope per
element of the per-item expansion, in the expansion's order. -/
def flatMapWorkerSends (f : T → List U) (x : T) : List (Result ε U) :=
  (f x).map (fun y => ⟨y, none⟩)

/-- The items the `processAsync` dispatch loop hands to workers when its
upstream is an iterator of this library: every pushed value receives its
own worker, because a library iterator's error slot is observably nil until
its pushes have ended, so the mid-loop error check never fires. -/
def dispatchItems (d : Dr ε T) : List T :=
  d.out.map Prod.snd

/-- The envelopes the dispatcher itself sends after `wg.Wait()`: one error
envelope (with the zero value `*new(U)`) when the upstream's error slot is
set once the pull loop has ended, nothing otherwise. -/
def dispatchFinalSends [Inhabited U] (d : Dr ε T) : List (Result ε U) :=
  match d.err with
  | some e => [⟨default, some e⟩]
  | none => []

/-- The possible rendezvous-channel delivery orders of one `processAsync`
run over a library upstream `d`: the workers' envelopes arrive interleaved
in completion order (any reordering of the concatenation that keeps each
worker's own sends in order is possible; `w.Perm` over-approximates this
set), and the dispatcher's final error envelope, sent only after
`wg.Wait()`, arrives after all of them. -/
def ChannelRun [Inhabited U] (worker : T → List (Result ε U)) (d : Dr ε T)
    (s : List (Result ε U)) : Prop :=
  ∃ w : List (Result ε U),
    w.Perm ((dispatchItems d).map worker).flatten ∧ s = w ++ dispatchFinalSends d

/-!
Event-trace model of the dispatcher goroutine, for the synchronisation
claims.  The upstream is seen at the interface: a list of pulled items,
each paired with the value `iter.Err()` returns right after that pull (for
iterators built by this library this mid-pull observation is always `none`,
the slot only fills when the pushes end), plus the slot's value observed by
the final check after the loop.
-/

/-- Events of the dispatcher goroutine: starting a worker (`wg.Add(1)` and
`go ...`), sending an error envelope, `wg.Wait()`, and the deferred
`close(channel)` that runs when the goroutine returns. -/
inductive AEv (ε : Type) where
  | start (i : Nat)
  | sendE (e : ε)
  | waitAll
  | closeCh
deriving DecidableEq, Repr

/-- Scan of a trace with the number of workers started and not yet waited
for: `closeCh` is safe only when that number is zero, so the function is
`true` exactly when every started worker has been waited for before each
close. -/
def wbcAux : List (AEv ε) → Nat → Bool
  | [], _ => true
  | AEv.start _ :: rest, p => wbcAux rest (p + 1)
  | AEv.sendE _ :: rest, p => wbcAux rest p
  | AEv.waitAll :: rest, _ => wbcAux rest 0
  | AEv.closeCh :: rest, p => p == 0 && wbcAux rest p

/-- A trace waits for all started workers before closing the channel. -/
def waitsBeforeClose (t : List (AEv ε)) : Bool :=
  wbcAux t 0

/-- Loop of the plain `processAsync` dispatcher (`async_algorithms.go`,
also the indexed variant): for each pulled item, if `iter.Err()` is now
non-nil, send the error and return (the deferred close runs with no
`wg.Wait()`); otherwise start a worker.  When the pull loop ends,
`wg.Wait()`, then the final error check, then return (deferred close). -/
def dispatchTraceGo (finalErr : Option ε) (i : Nat) : List (T × Option ε) → List (AEv ε)
  | [] =>
    AEv.waitAll ::
      ((match finalErr with
        | some e => [AEv.sendE e]
        | none => []) ++ [AEv.closeCh])
  | (_, some e) :: _ => [AEv.sendE e, AEv.closeCh]
  | (_, none) :: rest => AEv.start i :: dispatchTraceGo finalErr (i + 1) rest

/-- Event trace of one run of the plain `processAsync` dispatcher over an
interface-level upstream. -/
def dispatchTrace (pulls : List (T × Option ε)) (finalErr : Option ε) : List (AEv ε) :=
  dispatchTraceGo finalErr 0 pulls

/-- Loop of the context-aware `processAsync` dispatcher
(`async_algorithms.go`): before each item, if the context is cancelled,
send `ctx.Err()`, `wg.Wait()`, return; then the upstream error check (send,
wait, return); otherwise start a worker.  After the loop, the
`done`/`ctx.Done()` select: when the context is cancelled by then and the
select takes the `ctx.Done()` branch (`pickDone = false`), send
`ctx.Err()`, wait, return; otherwise the `done` branch completes the wait
first and the final upstream error check runs before the return.
`cancelled k` is the context's state at the dispatcher's k-th observation
point. -/
def ctxDispatchTraceGo (ctxE : ε) (cancelled : Nat → Bool) (pickDone : Bool)
    (finalErr : Option ε) (i : Nat) : List (T × Option ε) → List (AEv ε)
  | [] =>
    if cancelled i && !pickDone then
      [AEv.sendE ctxE, AEv.waitAll, AEv.closeCh]
    else
      AEv.waitAll ::
        ((match finalErr with
          | some e => [AEv.sendE e]
          | none => []) ++ [AEv.closeCh])
  | (_, pe) :: rest =>
    if cancelled i then [AEv.sendE ctxE, AEv.waitAll, AEv.closeCh]
    else
      match pe with
      | some e => [AEv.sendE e, AEv.waitAll, AEv.closeCh]
      | none => AEv.start i :: ctxDispatchTraceGo ctxE cancelled pickDone finalErr (i + 1) rest

/-- Event trace of one run of the context-aware `processAsync` dispatcher. -/
def ctxDispatchTrace (pulls : List (T × Option ε)) (finalErr : Option ε)
    (ctxE : ε) (cancelled : Nat → Bool) (pickDone : Bool) : List (AEv ε) :=
  ctxDispatchTraceGo ctxE cancelled pickDone finalErr 0 pulls

/-- Number of workers a trace starts. -/
def traceStarts : List (AEv ε) → Nat
  | [] => 0
  | AEv.start _ :: rest => traceStarts rest + 1
  | _ :: rest => traceStarts rest

/-- The error envelopes the dispatcher itself sends along a trace, in
order, as channel envelopes (the value field is the zero value). -/
def traceSendEnvelopes [Inhabited U] : List (AEv ε) → List (Result ε U)
  | [] => []
  | AEv.sendE e :: rest => ⟨default, some e⟩ :: traceSendEnvelopes rest
  | _ :: rest => traceSendEnvelopes rest

/-!
Stateful view of individual iterators, for the redrain and stickiness
claims.  A drain is a state transition; redraining is applying the drain to
the state a previous drain left behind.
-/

/-- One full `INext` drain of a `NewIterator`/`NewIteratorFromSlice`
iterator (`iterator.go`): its `next` closure re-runs the stored
(restartable) `iter.Seq2` each time and never touches the error slot, so
the state is the sequence itself, unchanged. -/
def sliceIterDrain (s : List T) : List (Nat × T) × List T :=
  (enumIdx 0 s, s)

/-- State of a `NewIteratorErr` iterator: the stored (restartable) fallible
generator and the sticky error slot. -/
structure ErrIterSt (ε : Type) (T : Type) where
  gen : List (T × Option ε)
  err : Option ε
deriving DecidableEq, Repr

/-- One full drain of a `NewIteratorErr` iterator (`iterator.go`): the
`next` closure first checks `self.Err()` and returns immediately when the
slot is set; otherwise it runs the generator from a fresh local counter,
possibly setting the slot. -/
def errIterDrain (st : ErrIterSt ε T) : List (Nat × T) × ErrIterSt ε T :=
  match st.err with
  | some _ => ([], st)
  | none => ((errGenRun 0 st.gen).1, ⟨st.gen, (errGenRun 0 st.gen).2⟩)

/-- The `newIterator` wrapper (`iterator.go`) guarding every combinator
iterator: when the error slot is already set the wrapped body is never run
and nothing is yielded; otherwise the body runs from the inner state,
yielding pairs and a new inner state and slot value. -/
def wrappedDrain (body : σ → List (Nat × T) × σ × Option ε) (st : σ × Option ε) :
    List (Nat × T) × (σ × Option ε) :=
  match st.2 with
  | some _ => ([], st)
  | none => ((body st.1).1, ((body st.1).2.1, (body st.1).2.2))

/-- State of an `asyncIterator` (`async_iterator.go`): the envelopes still
queued in its channel and the sticky error slot. -/
structure AsyncIterSt (ε : Type) (T : Type) where
  pending : List (Result ε T)
  err : Option ε
deriving DecidableEq, Repr

/-- One full `INext` drain of an `asyncIterator` from a given state: the
loop reads envelopes without consulting the slot first, so a redrain keeps
consuming whatever is still queued, restarting the local counter at 0; the
slot is overwritten only when an error envelope is read. -/
def asyncIterDrain (st : AsyncIterSt ε T) : List (Nat × T) × AsyncIterSt ε T :=
  let r := inextDrain 0 st.pending
  (r.1, ⟨r.2.2, match r.2.1 with
                | some e => some e
                | none => st.err⟩)

/-!
Helper lemmas about the loop translations.
-/

theorem enumIdx_append (i : Nat) (a b : List T) :
    enumIdx i (a ++ b) = enumIdx i a ++ enumIdx (i + a.length) b := by
  induction a generalizing i with
  | nil => simp [enumIdx]
  | cons x rest ih => simp [enumIdx, ih, Nat.add_assoc, Nat.add_comm 1]

theorem enumIdx_map_snd (i : Nat) (l : List T) :
    (enumIdx i l).map Prod.snd = l := by
  induction l generalizing i with
  | nil => rfl
  | cons x rest ih => simp [enumIdx, ih]

theorem enumIdx_map_fst (i : Nat) (l : List T) :
    (enumIdx i l).map Prod.fst = List.range' i l.length := by
  induction l generalizing i with
  | nil => rfl
  | cons x rest ih => simp [enumIdx, ih, List.range']

theorem enumIdx_length (i : Nat) (l : List T) :
    (enumIdx i l).length = l.length := by
  induction l generalizing i with
  | nil => rfl
  | cons x rest ih => simp [enumIdx, ih]

theorem enumIdx_take (i k : Nat) (l : List T) :
    enumIdx i (l.take k) = (enumIdx i l).take k := by
  induction l generalizing i k with
  | nil => simp [enumIdx]
  | cons x rest ih =>
    cases k with
    | zero => simp [enumIdx]
    | succ m => simp [enumIdx, ih]

theorem mapLoop_eq_map (f : T → U) (l : List (Nat × T)) :
    mapLoop f l = l.map (fun q => (q.1, f q.2)) := by
  induction l with
  | nil => rfl
  | cons q rest ih => cases q; simp [mapLoop, ih]

theorem imapLoop_eq_map (f : Nat → T → U) (l : List (Nat × T)) :
    imapLoop f l = l.map (fun q => (q.1, f q.1 q.2)) := by
  induction l with
  | nil => rfl
  | cons q rest ih => cases q; simp [imapLoop, ih]

theorem filterLoop_eq_filter (p : T → Bool) (l : List (Nat × T)) :
    filterLoop p l = l.filter (fun q => p q.2) := by
  induction l with
  | nil => rfl
  | cons q rest ih =>
    cases q with
    | mk i x => by_cases h : p x <;> simp [filterLoop, List.filter, h, ih]

theorem ifilterLoop_eq_filter (p : Nat → T → Bool) (l : List (Nat × T)) :
    ifilterLoop p l = l.filter (fun q => p q.1 q.2) := by
  induction l with
  | nil => rfl
  | cons q rest ih =>
    cases q with
    | mk i x => by_cases h : p i x <;> simp [ifilterLoop, List.filter, h, ih]

theorem yieldFrom_eq_enumIdx (i : Nat) (l : List U) :
    yieldFrom i l = enumIdx i l := by
  induction l generalizing i with
  | nil => rfl
  | cons y ys ih => simp [yieldFrom, enumIdx, ih]

theorem flatMapLoop_eq_enumIdx (f : T → List U) (i : Nat) (l : List (Nat × T)) :
    flatMapLoop f i l = enumIdx i ((l.map (fun q => f q.2)).flatten) := by
  induction l generalizing i with
  | nil => rfl
  | cons q rest ih =>
    cases q with
    | mk j x =>
      simp [flatMapLoop, yieldFrom_eq_enumIdx, ih, enumIdx_append]

theorem iflatMapLoop_eq_enumIdx (f : Nat → T → List U) (i : Nat) (l : List (Nat × T)) :
    iflatMapLoop f i l = enumIdx i ((l.map (fun q => f q.1 q.2)).flatten) := by
  induction l generalizing i with
  | nil => rfl
  | cons q rest ih =>
    cases q with
    | mk j x =>
      simp [iflatMapLoop, yieldFrom_eq_enumIdx, ih, enumIdx_append]

theorem errGenRun_shape (vals : List T) (x : T) (e : ε) (rest : List (T × Option ε)) :
    ∀ i, errGenRun i (vals.map (fun v => (v, none)) ++ (x, some e) :: rest) =
      (enumIdx i vals, some e) := by
  induction vals with
  | nil => intro i; rfl
  | cons v vs ih => intro i; simp [errGenRun, ih, enumIdx]

theorem errGenRun_clean (vals : List T) :
    ∀ i, errGenRun i (vals.map (fun v => ((v, none) : T × Option ε))) = (enumIdx i vals, none) := by
  induction vals with
  | nil => intro i; rfl
  | cons v vs ih => intro i; simp [errGenRun, ih, enumIdx]

theorem takeLoop_enumIdx (n : Int) (e : Option ε) (C : List T) :
    ∀ i : Nat, (i : Int) < n →
      takeLoop n e (enumIdx i C) =
        (enumIdx i (C.take (n - i).toNat),
         if (C.length : Int) < n - i then e else none,
         min (n - i).toNat C.length) := by
  induction C with
  | nil =>
    intro i h
    have hc : (0 : Int) < n - (i : Int) := by omega
    simp [enumIdx, takeLoop, hc]
  | cons c rest ih =>
    intro i h
    by_cases hstop : n - 1 ≤ (i : Int)
    · have hi : (n - (i : Int)).toNat = 1 := by omega
      have hc : ¬((rest.length : Int) + 1 < n - (i : Int)) := by omega
      have hm : min (n - (i : Int)).toNat (rest.length + 1) = 1 := by omega
      simp [enumIdx, takeLoop, hstop, hi, hc, hm]
    · have h1 : ((i + 1 : Nat) : Int) < n := by push_cast; omega
      have h2 : (n - (i : Int)).toNat = (n - ((i + 1 : Nat) : Int)).toNat + 1 := by
        push_cast; omega
      have hc : ((rest.length : Int) < n - ((i + 1 : Nat) : Int)) =
          ((rest.length : Int) + 1 < n - (i : Int)) := by
        apply propext; push_cast; omega
      have hm : min (n - ((i + 1 : Nat) : Int)).toNat rest.length + 1 =
          min (n - (i : Int)).toNat (rest.length + 1) := by
        push_cast; omega
      simp only [enumIdx, takeLoop, hstop, if_false, ih (i + 1) h1, h2, List.take,
        List.length_cons, Nat.cast_add, Nat.cast_one, hm, Prod.mk.injEq, true_and]
      refine ⟨?_, ?_⟩
      · by_cases hx : ((rest.length : Int)) < n - ((i : Int) + 1)
        · rw [if_pos hx, if_pos (by omega)]
        · rw [if_neg hx, if_neg (by omega)]
      · omega

theorem nextDrain_noErr (s : List (Result ε T)) (h : ∀ r ∈ s, r.err = none) :
    nextDrain s = (s.map Result.value, none) := by
  induction s with
  | nil => rfl
  | cons r rest ih =>
    have hr := h r (by simp)
    simp [nextDrain, hr, ih (fun q hq => h q (by simp [hq]))]

theorem nextDrain_append_noErr (s t : List (Result ε T)) (h : ∀ r ∈ s, r.err = none) :
    nextDrain (s ++ t) = (s.map Result.value ++ (nextDrain t).1, (nextDrain t).2) := by
  induction s with
  | nil => simp
  | cons r rest ih =>
    have hr := h r (by simp)
    simp [nextDrain, hr, ih (fun q hq => h q (by simp [hq]))]

theorem nextDrain_first_err (e : ε) (s : List (Result ε T))
    (hall : ∀ r ∈ s, r.err = none ∨ r.err = some e)
    (hsome : ∃ r ∈ s, r.err ≠ none) :
    (nextDrain s).2 = some e := by
  induction s with
  | nil => simp at hsome
  | cons r rest ih =>
    rcases hall r (by simp) with hr | hr
    · have hrest : ∃ q ∈ rest, q.err ≠ none := by
        rcases hsome with ⟨q, hq, hqe⟩
        rcases List.mem_cons.mp hq with rfl | hq2
        · exact absurd hr hqe
        · exact ⟨q, hq2, hqe⟩
      simp [nextDrain, hr, ih (fun q hq => hall q (by simp [hq])) hrest]
    · simp [nextDrain, hr]

theorem flatten_map_mapWorkerSends (f : T → U) (l : List T) :
    ((l.map (mapWorkerSends f)).flatten : List (Result ε U)) =
      l.map (fun x => ⟨f x, none⟩) := by
  induction l with
  | nil => rfl
  | cons x rest ih => simp [mapWorkerSends, ih]

theorem flatten_map_filterWorkerSends (p : T → Bool) (l : List T) :
    ((l.map (filterWorkerSends p)).flatten : List (Result ε T)) =
      (l.filter p).map (fun x => ⟨x, none⟩) := by
  induction l with
  | nil => rfl
  | cons x rest ih =>
    by_cases hx : p x <;> simp [filterWorkerSends, hx, ih, List.filter]

theorem flatten_map_flatMapWorkerSends (f : T → List U) (l : List T) :
    ((l.map (flatMapWorkerSends f)).flatten : List (Result ε U)) =
      ((l.map f).flatten).map (fun y => ⟨y, none⟩) := by
  induction l with
  | nil => rfl
  | cons x rest ih => simp [flatMapWorkerSends, ih]

theorem inextDrain_eq (rs : List (Result ε T)) :
    ∀ i, inextDrain i rs =
      (enumIdx i ((rs.takeWhile (fun r => r.err.isNone)).map Result.value),
       ((rs.dropWhile (fun r => r.err.isNone)).head?.bind Result.err),
       (rs.dropWhile (fun r => r.err.isNone)).tail) := by
  induction rs with
  | nil => intro i; rfl
  | cons r rest ih =>
    intro i
    match hr : r.err with
    | some e =>
      simp [inextDrain, hr, List.takeWhile, List.dropWhile, Option.isNone, enumIdx]
    | none =>
      simp [inextDrain, hr, List.takeWhile, List.dropWhile, Option.isNone, enumIdx, ih (i + 1)]

theorem enumIdx_map_val (f : T → U) (i : Nat) (l : List T) :
    (enumIdx i l).map (fun q => (q.1, f q.2)) = enumIdx i (l.map f) := by
  induction l generalizing i with
  | nil => rfl
  | cons x rest ih => simp [enumIdx, ih]

theorem filter_map_snd (p : T → Bool) (l : List (Nat × T)) :
    (l.filter (fun q => p q.2)).map Prod.snd = (l.map Prod.snd).filter p := by
  induction l with
  | nil => rfl
  | cons q rest ih =>
    by_cases hq : p q.2 <;> simp [List.filter, hq, ih]

theorem takeLoop_split (n : Int) (e : Option ε) (l : List (Nat × T)) :
    takeLoop n e l =
      (l.takeWhile (fun q => decide ((q.1 : Int) < n - 1)) ++
         (l.dropWhile (fun q => decide ((q.1 : Int) < n - 1))).take 1,
       if (l.dropWhile (fun q => decide ((q.1 : Int) < n - 1))).isEmpty then e else none,
       (l.takeWhile (fun q => decide ((q.1 : Int) < n - 1))).length +
         min (l.dropWhile (fun q => decide ((q.1 : Int) < n - 1))).length 1) := by
  induction l with
  | nil => simp [takeLoop]
  | cons q rest ih =>
    cases q with
    | mk i x =>
      by_cases hstop : n - 1 ≤ (i : Int)
      · have hw : ¬((i : Int) < n - 1) := by omega
        simp [takeLoop, hstop, hw, List.takeWhile_cons, List.dropWhile_cons]
      · have hw : (i : Int) < n - 1 := by omega
        simp [takeLoop, hstop, hw, ih, List.takeWhile_cons, List.dropWhile_cons,
          Nat.add_right_comm]
        rw [List.dropWhile_cons, if_pos (decide_eq_true hw)]

theorem dispatchTraceGo_wbc (finalErr : Option ε) (pulls : List (T × Option ε))
    (h : ∀ q ∈ pulls, q.2 = none) :
    ∀ i p, wbcAux (dispatchTraceGo finalErr i pulls) p = true := by
  induction pulls with
  | nil => intro i p; cases finalErr <;> simp [dispatchTraceGo, wbcAux]
  | cons q rest ih =>
    intro i p
    have hq := h q (by simp)
    cases q with
    | mk x oe =>
      simp only at hq
      subst hq
      simpa [dispatchTraceGo, wbcAux] using ih (fun r hr => h r (by simp [hr])) (i + 1) (p + 1)

theorem ctxDispatchTraceGo_wbc (ctxE : ε) (cancelled : Nat → Bool) (pickDone : Bool)
    (finalErr : Option ε) (pulls : List (T × Option ε)) :
    ∀ i p, wbcAux (ctxDispatchTraceGo ctxE cancelled pickDone finalErr i pulls) p = true := by
  induction pulls with
  | nil =>
    intro i p
    by_cases hc : cancelled i && !pickDone <;>
      cases finalErr <;> simp [ctxDispatchTraceGo, wbcAux, hc]
  | cons q rest ih =>
    intro i p
    by_cases hc : cancelled i
    · simp [ctxDispatchTraceGo, hc, wbcAux]
    · cases q with
      | mk x oe =>
        cases oe <;> simp [ctxDispatchTraceGo, hc, wbcAux, ih]

theorem channelRun_noErr_drain [Inhabited U] (worker : T → List (Result ε U)) (d : Dr ε T)
    (hd : d.err = none) (hw : ∀ r ∈ ((dispatchItems d).map worker).flatten, r.err = (none : Option ε))
    (s : List (Result ε U)) (hs : ChannelRun worker d s) :
    (nextDrain s).1.Perm ((((dispatchItems d).map worker).flatten).map Result.value) ∧
      (nextDrain s).2 = none := by
  rcases hs with ⟨w, hperm, hseq⟩
  have hwnone : ∀ r ∈ w, r.err = (none : Option ε) := fun r hr =>
    hw r (hperm.subset hr)
  have hfinal : (dispatchFinalSends d : List (Result ε U)) = [] := by
    simp [dispatchFinalSends, hd]
  subst hseq
  rw [hfinal, List.append_nil, nextDrain_noErr w hwnone]
  exact ⟨hperm.map Result.value, rfl⟩

/-!
Claim theorems.
-/

/-- C8: for every upstream iterator and pure function, synchronous `Map`
(and the indexed `IMap`) transforms each element 1:1 in order, keeps each
output under the position of its upstream input, and forwards the upstream
error slot; over a finite collection `C` the result is exactly the f-image
of `C` in `C`'s order, with positions `0..|C|-1` and a nil error. -/
theorem C8_map_functional_correctness (T U ε : Type) (C : List T) (f : T → U)
    (d : Dr ε T) (g : Nat → T → U) :
    Map (NewIteratorFromSlice C) f = ({ out := enumIdx 0 (C.map f), err := none } : Dr ε U) ∧
    (Map d f).out = d.out.map (fun q => (q.1, f q.2)) ∧
    (Map d f).err = d.err ∧
    (IMap d g).out = d.out.map (fun q => (q.1, g q.1 q.2)) ∧
    (IMap d g).err = d.err := by
  refine ⟨?_, ?_, rfl, ?_, rfl⟩
  · simp [Map, NewIteratorFromSlice, mapLoop_eq_map, enumIdx_map_val]
  · simp [Map, mapLoop_eq_map]
  · simp [IMap, imapLoop_eq_map]

/-- C7: for every upstream iterator, synchronous `Filter` (and the indexed
`IFilter`) yields exactly the pairs of the upstream whose value (or
position and value) satisfies the predicate, in upstream order and under
the original upstream positions, and forwards the upstream error slot. -/
theorem C7_filter_functional_correctness (T ε : Type) (d : Dr ε T)
    (p : T → Bool) (q : Nat → T → Bool) :
    (Filter d p).out = d.out.filter (fun r => p r.2) ∧
    (Filter d p).err = d.err ∧
    (Filter d p).out.map Prod.snd = (d.out.map Prod.snd).filter p ∧
    (IFilter d q).out = d.out.filter (fun r => q r.1 r.2) ∧
    (IFilter d q).err = d.err := by
  refine ⟨?_, rfl, ?_, ?_, rfl⟩
  · simp [Filter, filterLoop_eq_filter]
  · simp [Filter, filterLoop_eq_filter, filter_map_snd]
  · simp [IFilter, ifilterLoop_eq_filter]

/-- C9: for every upstream iterator and expansion function, synchronous
`FlatMap` (and the indexed `IFlatMap`) yields the concatenation of the
per-element expansions in upstream order, with output positions reassigned
densely as 0, 1, 2, ... across the whole flattened stream, independent of
the upstream positions, and forwards the upstream error slot. -/
theorem C9_flatmap_positions (T U ε : Type) (d : Dr ε T)
    (f : T → List U) (g : Nat → T → List U) :
    (FlatMap d f).out = enumIdx 0 ((d.out.map (fun q => f q.2)).flatten) ∧
    (FlatMap d f).out.map Prod.fst =
      List.range' 0 ((d.out.map (fun q => f q.2)).flatten).length ∧
    (FlatMap d f).err = d.err ∧
    (IFlatMap d g).out = enumIdx 0 ((d.out.map (fun q => g q.1 q.2)).flatten) ∧
    (IFlatMap d g).err = d.err := by
  refine ⟨?_, ?_, rfl, ?_, rfl⟩
  · simp [FlatMap, flatMapLoop_eq_enumIdx]
  · simp [FlatMap, flatMapLoop_eq_enumIdx, enumIdx_map_fst]
  · simp [IFlatMap, iflatMapLoop_eq_enumIdx]

/-- C10: the drain of an iterator built by `NewAsyncIteratorErr` assigns
positions densely as 0, 1, 2, ... in the channel's arrival order, counting
only the successfully yielded values (the envelopes before the first error
envelope); the first envelope carrying an error becomes the recorded error
and ends the drain, leaving every later queued envelope unread. -/
theorem C10_async_positions (T ε : Type) (rs : List (Result ε T)) :
    (inextDrain 0 rs).1 =
      enumIdx 0 ((rs.takeWhile (fun r => r.err.isNone)).map Result.value) ∧
    (inextDrain 0 rs).1.map Prod.fst =
      List.range' 0 (rs.takeWhile (fun r => r.err.isNone)).length ∧
    (inextDrain 0 rs).2.1 = (rs.dropWhile (fun r => r.err.isNone)).head?.bind Result.err ∧
    (inextDrain 0 rs).2.2 = (rs.dropWhile (fun r => r.err.isNone)).tail := by
  refine ⟨?_, ?_, ?_, ?_⟩ <;>
    simp [inextDrain_eq rs 0, enumIdx_map_fst]

/-- C1: over every finite, error-free upstream, each parallel combinator
(`MapAsync`, `FilterAsync`, `FlatMapAsync`) yields — in every order the
rendezvous channel can deliver the worker envelopes — a permutation, i.e.
the same unordered multiset, of its synchronous counterpart's values, and
the drained iterator's error slot is nil. -/
theorem C1_parallel_matches_sync (T U ε : Type) [Inhabited T] [Inhabited U]
    (d : Dr ε T) (f : T → U) (p : T → Bool) (g : T → List U)
    (hfree : d.err = none) :
    (∀ s, ChannelRun (mapWorkerSends f) d s →
      (nextDrain s).1.Perm ((Map d f).out.map Prod.snd) ∧ (nextDrain s).2 = none) ∧
    (∀ s, ChannelRun (filterWorkerSends p) d s →
      (nextDrain s).1.Perm ((Filter d p).out.map Prod.snd) ∧ (nextDrain s).2 = none) ∧
    (∀ s, ChannelRun (flatMapWorkerSends g) d s →
      (nextDrain s).1.Perm ((FlatMap d g).out.map Prod.snd) ∧ (nextDrain s).2 = none) := by
  refine ⟨?_, ?_, ?_⟩
  · intro s hs
    have hw : ∀ r ∈ ((dispatchItems d).map (mapWorkerSends f)).flatten,
        r.err = (none : Option ε) := by
      simp only [flatten_map_mapWorkerSends, List.mem_map]
      rintro r ⟨x, hx, rfl⟩
      rfl
    obtain ⟨h1, h2⟩ := channelRun_noErr_drain (mapWorkerSends f) d hfree hw s hs
    refine ⟨?_, h2⟩
    have heq : (((dispatchItems d).map (mapWorkerSends f : T → List (Result ε U))).flatten).map Result.value
        = (Map d f).out.map Prod.snd := by
      rw [flatten_map_mapWorkerSends]
      simp [Map, mapLoop_eq_map, dispatchItems, List.map_map, Function.comp]
    rwa [heq] at h1
  · intro s hs
    have hw : ∀ r ∈ ((dispatchItems d).map (filterWorkerSends p)).flatten,
        r.err = (none : Option ε) := by
      simp only [flatten_map_filterWorkerSends, List.mem_map]
      rintro r ⟨x, hx, rfl⟩
      rfl
    obtain ⟨h1, h2⟩ := channelRun_noErr_drain (filterWorkerSends p) d hfree hw s hs
    refine ⟨?_, h2⟩
    have heq : (((dispatchItems d).map (filterWorkerSends p : T → List (Result ε T))).flatten).map Result.value
        = (Filter d p).out.map Prod.snd := by
      rw [flatten_map_filterWorkerSends]
      simp [Filter, filterLoop_eq_filter, dispatchItems, List.map_map, filter_map_snd,
        Function.comp_def]
    rwa [heq] at h1
  · intro s hs
    have hw : ∀ r ∈ ((dispatchItems d).map (flatMapWorkerSends g)).flatten,
        r.err = (none : Option ε) := by
      simp only [flatten_map_flatMapWorkerSends, List.mem_map]
      rintro r ⟨x, hx, rfl⟩
      rfl
    obtain ⟨h1, h2⟩ := channelRun_noErr_drain (flatMapWorkerSends g) d hfree hw s hs
    refine ⟨?_, h2⟩
    have heq : (((dispatchItems d).map (flatMapWorkerSends g : T → List (Result ε U))).flatten).map Result.value
        = (FlatMap d g).out.map Prod.snd := by
      rw [flatten_map_flatMapWorkerSends]
      simp [FlatMap, flatMapLoop_eq_enumIdx, dispatchItems, List.map_map, enumIdx_map_snd,
        Function.comp_def]
    rwa [heq] at h1

theorem enumIdx_map_comp (h : T → U) (i : Nat) (l : List T) :
    (enumIdx i l).map (fun q => h q.2) = l.map h := by
  induction l generalizing i with
  | nil => rfl
  | cons y rest ih => simp [enumIdx, ih]

theorem channelRun_err_drain [Inhabited U] (worker : T → List (Result ε U)) (d : Dr ε T)
    (e : ε) (hd : d.err = some e)
    (hw : ∀ r ∈ ((dispatchItems d).map worker).flatten, r.err = (none : Option ε))
    (s : List (Result ε U)) (hs : ChannelRun worker d s) :
    (nextDrain s).1.Perm ((((dispatchItems d).map worker).flatten).map Result.value) ∧
      (nextDrain s).2 = some e := by
  rcases hs with ⟨w, hperm, hseq⟩
  have hwnone : ∀ r ∈ w, r.err = (none : Option ε) := fun r hr => hw r (hperm.subset hr)
  have hfinal : (dispatchFinalSends d : List (Result ε U)) = [⟨default, some e⟩] := by
    simp [dispatchFinalSends, hd]
  subst hseq
  rw [hfinal, nextDrain_append_noErr w _ hwnone]
  constructor
  · simpa [nextDrain] using hperm.map Result.value
  · simp [nextDrain]

/-- C2 as stated is false on the code: over the fallible upstream that
yields 1, 2 and then errors with 7, `Take` with n = 1 drains to a single
element and a nil error slot, contradicting the claim that every
combinator (`Take` included) built on such an upstream reports a non-nil
error after draining. -/
theorem C2_counterexample :
    (Take (NewIteratorErr [((1 : Nat), (none : Option Nat)), (2, none), (3, some 7)]) 1).out
      = [(0, 1)] ∧
    (Take (NewIteratorErr [((1 : Nat), (none : Option Nat)), (2, none), (3, some 7)]) 1).err
      = none := by
  decide

/-- C2 amended: over an upstream that yields k values `vals` and then
errors with `e` (the adapter withholds the erroring element), `Map`,
`Filter` and `FlatMap` yield exactly the transform / filtered subset /
expansion of those k values and report the error `e`; the parallel
variants `MapAsync`, `FilterAsync` and `FlatMapAsync` yield the same
multiset as their synchronous counterparts (in any delivery order) and
report `e`; `Take` yields the first min(n, k) values but reports the
error only when n > k — for 0 < n ≤ k its drain stops before the upstream
reaches the erroring element and its error slot stays nil. -/
theorem C2_error_propagation (T U ε : Type) [Inhabited T] [Inhabited U]
    (vals : List T) (x : T) (e : ε) (rest : List (T × Option ε))
    (f : T → U) (p : T → Bool) (g : T → List U) (n : Int) (d : Dr ε T)
    (hgen : d = NewIteratorErr (vals.map (fun v => (v, none)) ++ (x, some e) :: rest)) :
    d = ({ out := enumIdx 0 vals, err := some e } : Dr ε T) ∧
    ((Map d f).out.map Prod.snd = vals.map f ∧ (Map d f).err = some e) ∧
    ((Filter d p).out.map Prod.snd = vals.filter p ∧ (Filter d p).err = some e) ∧
    ((FlatMap d g).out.map Prod.snd = (vals.map g).flatten ∧ (FlatMap d g).err = some e) ∧
    (0 < n → n ≤ (vals.length : Int) →
      (Take d n).out = enumIdx 0 (vals.take n.toNat) ∧ (Take d n).err = none) ∧
    ((vals.length : Int) < n →
      (Take d n).out = enumIdx 0 vals ∧ (Take d n).err = some e) ∧
    (∀ s, ChannelRun (mapWorkerSends f) d s →
      (nextDrain s).1.Perm (vals.map f) ∧ (nextDrain s).2 = some e) ∧
    (∀ s, ChannelRun (filterWorkerSends p) d s →
      (nextDrain s).1.Perm (vals.filter p) ∧ (nextDrain s).2 = some e) ∧
    (∀ s, ChannelRun (flatMapWorkerSends g) d s →
      (nextDrain s).1.Perm ((vals.map g).flatten) ∧ (nextDrain s).2 = some e) := by
  have hd : d = ({ out := enumIdx 0 vals, err := some e } : Dr ε T) := by
    rw [hgen]
    simp [NewIteratorErr, errGenRun_shape]
  subst hd
  refine ⟨rfl, ⟨?_, rfl⟩, ⟨?_, rfl⟩, ⟨?_, rfl⟩, ?_, ?_, ?_, ?_, ?_⟩
  · simp [Map, mapLoop_eq_map, enumIdx_map_val, enumIdx_map_snd]
  · simp [Filter, filterLoop_eq_filter, filter_map_snd, enumIdx_map_snd]
  · simp [FlatMap, flatMapLoop_eq_enumIdx, enumIdx_map_snd, enumIdx_map_comp, List.map_map,
      Function.comp_def]
  · intro hn hnk
    have hne : ¬(n ≤ 0) := by omega
    have ht := takeLoop_enumIdx n (some e) vals 0 (by exact_mod_cast hn)
    have hcond : ¬((vals.length : Int) < n - ((0 : Nat) : Int)) := by push_cast; omega
    simp only [Take, hne, if_false, ht, hcond]
    constructor
    · simp
    · simp [hcond]
  · intro hnk
    have hn : (0 : Int) < n := by
      have := Int.ofNat_nonneg vals.length
      omega
    have hne : ¬(n ≤ 0) := by omega
    have ht := takeLoop_enumIdx n (some e) vals 0 (by exact_mod_cast hn)
    have hcond : ((vals.length : Int) < n - ((0 : Nat) : Int)) := by push_cast; omega
    have htake : vals.take n.toNat = vals :=
      List.take_of_length_le (by omega)
    simp only [Take, hne, if_false, ht, hcond]
    constructor
    · simp [htake]
    · simp [hcond]
  · intro s hs
    have hw : ∀ r ∈ ((dispatchItems ({ out := enumIdx 0 vals, err := some e } : Dr ε T)).map
        (mapWorkerSends f : T → List (Result ε U))).flatten, r.err = (none : Option ε) := by
      simp only [flatten_map_mapWorkerSends, List.mem_map]
      rintro r ⟨y, hy, rfl⟩
      rfl
    obtain ⟨h1, h2⟩ := channelRun_err_drain (mapWorkerSends f) _ e rfl hw s hs
    refine ⟨?_, h2⟩
    have hv : (((dispatchItems ({ out := enumIdx 0 vals, err := some e } : Dr ε T)).map
        (mapWorkerSends f : T → List (Result ε U))).flatten).map Result.value
          = vals.map f := by
      rw [flatten_map_mapWorkerSends]
      simp [dispatchItems, List.map_map, Function.comp_def, enumIdx_map_snd]
    rwa [hv] at h1
  · intro s hs
    have hw : ∀ r ∈ ((dispatchItems ({ out := enumIdx 0 vals, err := some e } : Dr ε T)).map
        (filterWorkerSends p : T → List (Result ε T))).flatten, r.err = (none : Option ε) := by
      simp only [flatten_map_filterWorkerSends, List.mem_map]
      rintro r ⟨y, hy, rfl⟩
      rfl
    obtain ⟨h1, h2⟩ := channelRun_err_drain (filterWorkerSends p) _ e rfl hw s hs
    refine ⟨?_, h2⟩
    have hv : (((dispatchItems ({ out := enumIdx 0 vals, err := some e } : Dr ε T)).map
        (filterWorkerSends p : T → List (Result ε T))).flatten).map Result.value
          = vals.filter p := by
      rw [flatten_map_filterWorkerSends]
      simp [dispatchItems, List.map_map, Function.comp_def, enumIdx_map_snd]
    rwa [hv] at h1
  · intro s hs
    have hw : ∀ r ∈ ((dispatchItems ({ out := enumIdx 0 vals, err := some e } : Dr ε T)).map
        (flatMapWorkerSends g : T → List (Result ε U))).flatten, r.err = (none : Option ε) := by
      simp only [flatten_map_flatMapWorkerSends, List.mem_map]
      rintro r ⟨y, hy, rfl⟩
      rfl
    obtain ⟨h1, h2⟩ := channelRun_err_drain (flatMapWorkerSends g) _ e rfl hw s hs
    refine ⟨?_, h2⟩
    have hv : (((dispatchItems ({ out := enumIdx 0 vals, err := some e } : Dr ε T)).map
        (flatMapWorkerSends g : T → List (Result ε U))).flatten).map Result.value
          = (vals.map g).flatten := by
      rw [flatten_map_flatMapWorkerSends]
      simp [dispatchItems, List.map_map, Function.comp_def, enumIdx_map_snd]
    rwa [hv] at h1

/-- C3 as stated is false on the code: the filtered upstream of
[1, 2, 3, 4] keeping the even values yields L = 2 elements (values
[2, 4]), so with n = 2 the claim requires the first min(2, 2) = 2
elements; but `Take` stops on the upstream position (`idx >= n-1`), which
`Filter` leaves unrenumbered, so it yields only [2]. -/
theorem C3_counterexample :
    ((Filter (NewIteratorFromSlice [1, 2, 3, 4] : Dr Nat Nat) (fun v => v % 2 == 0)).out.map
        Prod.snd = [2, 4]) ∧
    ((Take (Filter (NewIteratorFromSlice [1, 2, 3, 4] : Dr Nat Nat) (fun v => v % 2 == 0))
        2).out.map Prod.snd = [2]) ∧
    [2] ≠ [2, 4] := by
  decide

/-- C3 amended: `Take` with n <= 0 yields nothing and never pulls the
upstream; with n > 0 it yields the upstream pairs while their *position*
is below n-1 plus the first pair whose position reaches n-1 (forwarding
the upstream error only when the upstream is exhausted first); over a
plain finite collection, whose positions are dense, this is exactly the
first min(n, |C|) elements with a nil error, pulling exactly min(n, |C|)
elements, and n >= |C| yields all of C. -/
theorem C3_take_semantics (T ε : Type) (d : Dr ε T) (C : List T) (n : Int) :
    (n ≤ 0 → Take d n = ({ out := [], err := none } : Dr ε T) ∧ TakePulls d n = 0) ∧
    (0 < n →
      (Take d n).out =
        d.out.takeWhile (fun q => decide ((q.1 : Int) < n - 1)) ++
          (d.out.dropWhile (fun q => decide ((q.1 : Int) < n - 1))).take 1 ∧
      (Take d n).err =
        (if (d.out.dropWhile (fun q => decide ((q.1 : Int) < n - 1))).isEmpty then d.err
         else none) ∧
      TakePulls d n =
        (d.out.takeWhile (fun q => decide ((q.1 : Int) < n - 1))).length +
          min (d.out.dropWhile (fun q => decide ((q.1 : Int) < n - 1))).length 1) ∧
    (0 < n →
      (Take (NewIteratorFromSlice C) n : Dr ε T) =
        ({ out := enumIdx 0 (C.take n.toNat), err := none } : Dr ε T) ∧
      TakePulls (NewIteratorFromSlice C : Dr ε T) n = min n.toNat C.length) ∧
    (0 < n → (C.length : Int) ≤ n →
      (Take (NewIteratorFromSlice C) n : Dr ε T).out = enumIdx 0 C) := by
  have hslice : 0 < n →
      (Take (NewIteratorFromSlice C) n : Dr ε T) =
        ({ out := enumIdx 0 (C.take n.toNat), err := none } : Dr ε T) ∧
      TakePulls (NewIteratorFromSlice C : Dr ε T) n = min n.toNat C.length := by
    intro hn
    have hne : ¬(n ≤ 0) := by omega
    have ht := takeLoop_enumIdx n (none : Option ε) C 0 (by exact_mod_cast hn)
    have hzero : n - ((0 : Nat) : Int) = n := by push_cast; omega
    rw [hzero] at ht
    constructor
    · simp [Take, hne, NewIteratorFromSlice, ht, ite_self]
    · simp [TakePulls, hne, NewIteratorFromSlice, ht]
  refine ⟨?_, ?_, hslice, ?_⟩
  · intro h
    simp [Take, TakePulls, h]
  · intro hn
    have hne : ¬(n ≤ 0) := by omega
    refine ⟨?_, ?_, ?_⟩ <;>
      simp [Take, TakePulls, hne, takeLoop_split]
  · intro hn hlen
    have htake : C.take n.toNat = C := List.take_of_length_le (by omega)
    rw [((hslice hn).1 : _)]
    simp [htake]

/-- C4 as stated is false for the plain (non-context) engine: with an
upstream whose `Err()` is observed non-nil right after its second pull,
the dispatch loop ends because the upstream error is detected, and the
dispatcher returns — running the deferred close — without waiting for the
worker already started for the first pull. -/
theorem C4_counterexample :
    dispatchTrace [((1 : Nat), (none : Option Nat)), (2, some 7)] none =
      [AEv.start 0, AEv.sendE 7, AEv.closeCh] ∧
    waitsBeforeClose (dispatchTrace [((1 : Nat), (none : Option Nat)), (2, some 7)] none) =
      false := by
  decide

/-- C4 amended: the context-aware engine waits (`wg.Wait()`) before the
channel close on every exit path; the plain engine does so whenever its
upstream's error is never observable immediately after a pull — which is
the case for every iterator this library constructs, their slots filling
only when their pushes end — leaving only the interface-level trace of the
counterexample unprotected. -/
theorem C4_wait_before_close (T ε : Type) (pulls pulls2 : List (T × Option ε))
    (finalErr finalErr2 : Option ε) (ctxE : ε) (cancelled : Nat → Bool) (pickDone : Bool)
    (hlaw : ∀ q ∈ pulls, q.2 = none) :
    waitsBeforeClose (dispatchTrace pulls finalErr) = true ∧
    waitsBeforeClose (ctxDispatchTrace pulls2 finalErr2 ctxE cancelled pickDone) = true := by
  constructor
  · simpa [waitsBeforeClose, dispatchTrace] using dispatchTraceGo_wbc finalErr pulls hlaw 0 0
  · simpa [waitsBeforeClose, ctxDispatchTrace] using
      ctxDispatchTraceGo_wbc ctxE cancelled pickDone finalErr2 pulls2 0 0

/-- C5 as stated is false for an empty input: with the context cancelled
before any work starts and no upstream elements, the final select may take
the immediately-ready `done` branch, in which case no error envelope is
sent and the drained output reports a nil error, not the cancellation
error. -/
theorem C5_counterexample :
    traceStarts (ctxDispatchTrace ([] : List (Nat × Option Nat)) none 0 (fun _ => true) true)
      = 0 ∧
    nextDrain (traceSendEnvelopes
      (ctxDispatchTrace ([] : List (Nat × Option Nat)) none 0 (fun _ => true) true) :
        List (Result Nat Nat)) = ([], none) ∧
    ((none : Option Nat) ≠ some 0) := by
  decide

/-- C5 amended: with the context cancelled before any work starts, the
engine starts zero workers and the drained output is empty for every
input; when the input has at least one element the dispatcher
deterministically emits exactly the cancellation-error envelope, so the
drain reports the cancellation error (for an empty input the reported
error depends on which branch the final select takes).  On every run the
engine waits for all started workers before the channel closes, and
whenever every envelope is either a value or the cancellation error and at
least one error envelope is delivered, the drain's recorded error is the
cancellation error. -/
theorem C5_cancellation (T ε U : Type) [Inhabited U] (q0 : T × Option ε)
    (pulls rest : List (T × Option ε)) (finalErr : Option ε) (ctxE : ε)
    (cancelled : Nat → Bool) (pickDone : Bool) (s : List (Result ε U)) :
    (ctxDispatchTrace (q0 :: rest) finalErr ctxE (fun _ => true) pickDone =
        [AEv.sendE ctxE, AEv.waitAll, AEv.closeCh] ∧
      traceStarts (ctxDispatchTrace (q0 :: rest) finalErr ctxE (fun _ => true) pickDone) = 0 ∧
      nextDrain (traceSendEnvelopes
        (ctxDispatchTrace (q0 :: rest) finalErr ctxE (fun _ => true) pickDone) :
          List (Result ε U)) = ([], some ctxE)) ∧
    (traceStarts (ctxDispatchTrace pulls finalErr ctxE (fun _ => true) pickDone) = 0 ∧
      (nextDrain (traceSendEnvelopes
        (ctxDispatchTrace pulls finalErr ctxE (fun _ => true) pickDone) :
          List (Result ε U))).1 = []) ∧
    waitsBeforeClose (ctxDispatchTrace pulls finalErr ctxE cancelled pickDone) = true ∧
    ((∀ r ∈ s, r.err = none ∨ r.err = some ctxE) → (∃ r ∈ s, r.err ≠ none) →
      (nextDrain s).2 = some ctxE) := by
  refine ⟨?_, ?_, ?_, ?_⟩
  · cases q0 with
    | mk y oe =>
      refine ⟨?_, ?_, ?_⟩ <;>
        simp [ctxDispatchTrace, ctxDispatchTraceGo, traceStarts, traceSendEnvelopes, nextDrain]
  · cases pulls with
    | nil =>
      cases pickDone <;> cases finalErr <;>
        simp [ctxDispatchTrace, ctxDispatchTraceGo, traceStarts, traceSendEnvelopes, nextDrain]
    | cons q1 rest1 =>
      cases q1 with
      | mk y oe =>
        refine ⟨?_, ?_⟩ <;>
          simp [ctxDispatchTrace, ctxDispatchTraceGo, traceStarts, traceSendEnvelopes, nextDrain]
  · simpa [waitsBeforeClose, ctxDispatchTrace] using
      ctxDispatchTraceGo_wbc ctxE cancelled pickDone finalErr pulls 0 0
  · intro hall hsome
    exact nextDrain_first_err ctxE s hall hsome

/-- C6 as stated is false on the code: a slice-backed iterator redrained
after a completed, error-free drain yields all its elements again; and an
async iterator whose error slot was set by an error envelope yields a
further queued value on a redrain (its position restarting at 0) while the
slot still holds the old error — so redraining neither yields nothing nor
is yielding stopped by a set slot. -/
theorem C6_counterexample :
    (sliceIterDrain ((sliceIterDrain [(5 : Nat)]).2)).1 = [(0, 5)] ∧
    ([((0 : Nat), (5 : Nat))] ≠ []) ∧
    (asyncIterDrain (⟨[⟨0, some 7⟩, ⟨9, none⟩], none⟩ : AsyncIterSt Nat Nat)).2.err = some 7 ∧
    (asyncIterDrain
      (asyncIterDrain (⟨[⟨0, some 7⟩, ⟨9, none⟩], none⟩ : AsyncIterSt Nat Nat)).2).1 =
        [(0, 9)] ∧
    (asyncIterDrain
      (asyncIterDrain (⟨[⟨0, some 7⟩, ⟨9, none⟩], none⟩ : AsyncIterSt Nat Nat)).2).2.err =
        some 7 := by
  decide

/-- C6 amended: for the sync iterators guarded by the error-checking
wrapper (`NewIteratorErr` and every `newIterator`-built combinator), a set
error slot is sticky — a further drain yields nothing and leaves the state,
hence the observed error, unchanged.  Slice-backed iterators never set the
slot and redraining one repeats all its elements; an async iterator's
drain ignores its slot, so after an error it resumes yielding whatever is
still queued. -/
theorem C6_sticky_error (σ T ε : Type) (g : List (T × Option ε)) (e : ε)
    (body : σ → List (Nat × T) × σ × Option ε) (st : σ) (l : List T)
    (pend : List (Result ε T)) (e0 e1 : Option ε) :
    errIterDrain ⟨g, some e⟩ = ([], ⟨g, some e⟩) ∧
    wrappedDrain body (st, some e) = ([], (st, some e)) ∧
    (sliceIterDrain l).1 = enumIdx 0 l ∧
    (sliceIterDrain ((sliceIterDrain l).2)).1 = enumIdx 0 l ∧
    (asyncIterDrain ⟨pend, e0⟩).1 = (asyncIterDrain ⟨pend, e1⟩).1 := by
  exact ⟨rfl, rfl, rfl, rfl, rfl⟩

/-- Witness for C1 at input [1, 2] with the doubling map and a channel
delivery in swapped completion order. -/
theorem C1_parallel_matches_sync_witness :
    (nextDrain [(⟨4, none⟩ : Result Nat Nat), ⟨2, none⟩]).1.Perm
      ((Map (NewIteratorFromSlice [1, 2] : Dr Nat Nat) (fun v => 2 * v)).out.map Prod.snd) ∧
    (nextDrain [(⟨4, none⟩ : Result Nat Nat), ⟨2, none⟩]).2 = none :=
  (C1_parallel_matches_sync Nat Nat Nat (NewIteratorFromSlice [1, 2]) (fun v => 2 * v)
      (fun v => v % 2 == 0) (fun v => [v, v]) rfl).1
    [⟨4, none⟩, ⟨2, none⟩] ⟨[⟨4, none⟩, ⟨2, none⟩], by decide, by decide⟩

/-- Witness for C2 over the upstream yielding 1, 2 and then erroring with
7: `Take` with n = 5 > k = 2 yields both values and reports the error. -/
theorem C2_error_propagation_witness :
    (Take (NewIteratorErr [((1 : Nat), (none : Option Nat)), (2, none), (3, some 7)]) 5).out =
      enumIdx 0 [1, 2] ∧
    (Take (NewIteratorErr [((1 : Nat), (none : Option Nat)), (2, none), (3, some 7)]) 5).err =
      some 7 :=
  (C2_error_propagation Nat Nat Nat [1, 2] 3 7 [] (fun v => 2 * v) (fun v => v % 2 == 0)
      (fun v => [v]) 5
      (NewIteratorErr [((1 : Nat), (none : Option Nat)), (2, none), (3, some 7)])
      (by decide)).2.2.2.2.2.1 (by decide)

/-- Witness for the amended C3 over the collection [5, 6, 7] with n = 2:
the first two elements are taken, no error, two pulls. -/
theorem C3_take_semantics_witness :
    (Take (NewIteratorFromSlice [5, 6, 7] : Dr Nat Nat) 2) =
      ({ out := enumIdx 0 ([5, 6, 7].take (2 : Int).toNat), err := none } : Dr Nat Nat) ∧
    TakePulls (NewIteratorFromSlice [5, 6, 7] : Dr Nat Nat) 2 =
      min (2 : Int).toNat [5, 6, 7].length :=
  (C3_take_semantics Nat Nat (NewIteratorFromSlice [5, 6, 7]) [5, 6, 7] 2).2.2.1 (by decide)

/-- Witness for the amended C4 at concrete traces: a lawful two-element
upstream for the plain engine and a one-element upstream for the
context-aware engine. -/
theorem C4_wait_before_close_witness :
    waitsBeforeClose (dispatchTrace [((1 : Nat), (none : Option Nat)), (2, none)] (some 7)) =
      true ∧
    waitsBeforeClose
      (ctxDispatchTrace [((1 : Nat), (none : Option Nat))] none 0 (fun _ => false) true) =
      true :=
  C4_wait_before_close Nat Nat [((1 : Nat), none), (2, none)] [((1 : Nat), none)] (some 7)
    none 0 (fun _ => false) true (by decide)

/-- Witness for the amended C5 at a concrete channel content: one value
envelope followed by one cancellation-error envelope; the drain records
the cancellation error. -/
theorem C5_cancellation_witness :
    (nextDrain [(⟨4, none⟩ : Result Nat Nat), ⟨0, some 3⟩]).2 = some 3 :=
  (C5_cancellation Nat Nat Nat ((1 : Nat), (none : Option Nat)) [] [] none 3
      (fun _ => false) true [⟨4, none⟩, ⟨0, some 3⟩]).2.2.2 (by decide) (by decide)

end GoIterators
